import Mathlib

/-!
Verification of the diff-to-budget pipeline of `git-diff-analyzer`
(`src/main.rs`): path filtering (`should_skip_file`), diff section
filtering (`filter_large_generated_files`), heuristic token estimation
(`estimate_tokens`), budget truncation (`smart_summarize_diff`), and the
primary/fallback request flow of `analyze_diff_with_openai` /
`analyze_commit_with_openai`.

Strings are modelled by Lean `String` (a wrapper around `List Char`);
the Rust functions below are shallow embeddings operating on `s.data`.
`usize` arithmetic that can overflow is made explicit modulo `2 ^ 64`
(release-build wrapping semantics).
-/

namespace GitDiffAnalyzer

/-- Rust `char::is_whitespace`: the Unicode White_Space property.
Used by `str::split_whitespace` on diff boundary lines. -/
def rustIsWhitespace (c : Char) : Bool :=
  (0x09 ≤ c.val && c.val ≤ 0x0d) || c.val = 0x20 || c.val = 0x85 || c.val = 0xa0 ||
  c.val = 0x1680 || (0x2000 ≤ c.val && c.val ≤ 0x200a) ||
  c.val = 0x2028 || c.val = 0x2029 || c.val = 0x202f || c.val = 0x205f || c.val = 0x3000

/-- The piece of a split preceding the first separator chosen by `p`. -/
def splitByFirst (p : Char → Bool) : List Char → List Char
  | [] => []
  | c :: cs => if p c then [] else c :: splitByFirst p cs

/-- The pieces of a split following the first separator chosen by `p`. -/
def splitByRest (p : Char → Bool) : List Char → List (List Char)
  | [] => []
  | c :: cs =>
    if p c then splitByFirst p cs :: splitByRest p cs else splitByRest p cs

/-- All pieces of a split, in order; separators are dropped, empty pieces kept
(the behaviour of Rust `str::split`); the result is always non-empty. -/
def splitBy (p : Char → Bool) (cs : List Char) : List (List Char) :=
  splitByFirst p cs :: splitByRest p cs

/-- The newline separator test of Rust `str::lines`. -/
def isNl (c : Char) : Bool := c = '\n'

/-- Rust `str::split('\n')` on the character level. -/
def splitNl (cs : List Char) : List (List Char) :=
  splitBy isNl cs

/-- Keep a piece iff it is non-empty (`split_whitespace` drops empties). -/
def nonEmptyPiece (w : List Char) : Bool := ¬ w = []

/-- Rust `str::split_whitespace`: split on Unicode whitespace, dropping
empty pieces. -/
def splitWsL (cs : List Char) : List (List Char) :=
  (splitBy rustIsWhitespace cs).filter nonEmptyPiece

/-- Remove one trailing carriage return, as Rust `lines()` does to each
line that was terminated by `"\r\n"`. -/
def stripCr (l : List Char) : List Char :=
  if l.getLast? = some '\r' then l.dropLast else l

/-- Post-process the `'\n'`-split pieces the way Rust `str::lines` does:
every piece that was followed by a `'\n'` loses a trailing `'\r'`; a final
empty piece (input ended with `'\n'`) is dropped; a final non-empty piece is
kept verbatim. -/
def rustLinesPs : List (List Char) → List (List Char)
  | [] => []
  | [l] => if l = [] then [] else [l]
  | l :: ls => stripCr l :: rustLinesPs ls

/-- Rust `str::lines` on the character level. -/
def rustLinesL (cs : List Char) : List (List Char) :=
  rustLinesPs (splitNl cs)

/-- Rust `Vec<&str>::join("\n")` on the character level. -/
def joinNl : List (List Char) → List Char
  | [] => []
  | [l] => l
  | l :: ls => l ++ '\n' :: joinNl ls

/-- Characters the estimator counts as one token each:
`*c >= '가' && *c <= '힣'` in `estimate_tokens` (Hangul syllables). -/
def isKoreanChar (c : Char) : Bool :=
  '가' ≤ c && c ≤ '힣'

/-- `estimate_tokens` on a character list: Korean characters count 1 token
each, every 4 remaining characters count 1 token. -/
def estL (cs : List Char) : Nat :=
  let korean := (cs.filter isKoreanChar).length
  let other := cs.length - korean
  korean + other / 4

/-- Rust `fn estimate_tokens(text: &str) -> usize` (src/main.rs:221). -/
def estimate_tokens (s : String) : Nat :=
  estL s.data

/-- The `skip_patterns` array of `should_skip_file` (src/main.rs:176). -/
def skip_patterns : List String :=
  ["package-lock.json", "yarn.lock", "pnpm-lock.yaml", "composer.lock",
   "Gemfile.lock", "poetry.lock", "Pipfile.lock", "go.sum",
   ".min.js", ".min.css", ".bundle.js", ".bundle.css",
   "dist/", "build/", "output/", "out/",
   "CHANGELOG.md",
   ".vscode/", ".idea/",
   ".DS_Store", "Thumbs.db",
   ".json.map", ".js.map", ".css.map"]

/-- Rust `str::ends_with(pat)` on character lists. -/
def isSuffixOfL (pat cs : List Char) : Bool :=
  pat.reverse.isPrefixOf cs.reverse

/-- Rust `str::contains(pat)` on character lists: `pat` occurs as a
contiguous substring. -/
def isInfixOfL (pat : List Char) : List Char → Bool
  | [] => pat.isPrefixOf []
  | c :: cs => pat.isPrefixOf (c :: cs) || isInfixOfL pat cs

/-- `should_skip_file` on a character list: some pattern is contained in the
path (`str::contains`) or ends it (`str::ends_with`). -/
def shouldSkipL (cs : List Char) : Bool :=
  skip_patterns.any (fun pat => isInfixOfL pat.data cs || isSuffixOfL pat.data cs)

/-- Rust `fn should_skip_file(file_path: &str) -> bool` (src/main.rs:175). -/
def should_skip_file (file_path : String) : Bool :=
  shouldSkipL file_path.data

/-- `line.starts_with("diff --git")`. -/
def isBoundary (l : List Char) : Bool :=
  "diff --git".data.isPrefixOf l

/-- Rust `str::trim_start_matches("b/")`: repeatedly strip the prefix. -/
def trimStartMatchesB : List Char → List Char
  | 'b' :: '/' :: rest => trimStartMatchesB rest
  | l => l

/-- One scan step of `filter_large_generated_files` (src/main.rs:152-170),
expressed as structural recursion over the line list with the `skip_file`
flag as state. On a boundary line the flag is first reset; if the 4th
whitespace field exists and its `b/`-trimmed form matches a skip pattern the
flag is set and the line dropped, otherwise the line is kept. Non-boundary
lines are kept iff the flag is unset. -/
def filterLinesAux : Bool → List (List Char) → List (List Char)
  | _, [] => []
  | skip, l :: ls =>
    if isBoundary l then
      match (splitWsL l)[3]? with
      | some fp =>
        if shouldSkipL (trimStartMatchesB fp) then filterLinesAux true ls
        else l :: filterLinesAux false ls
      | none => l :: filterLinesAux false ls
    else if skip then filterLinesAux skip ls
    else l :: filterLinesAux false ls

/-- Rust `fn filter_large_generated_files(diff_content: &str) -> String`
(src/main.rs:146): split into lines, scan with the skip flag, re-join with
`"\n"`. -/
def filter_large_generated_files (diff_content : String) : String :=
  ⟨joinNl (filterLinesAux false (rustLinesL diff_content.data))⟩

/-- The truncation marker line appended by `smart_summarize_diff`
(src/main.rs:254). -/
def markerL : List Char :=
  "... (토큰 제한으로 나머지 내용 생략)\n".data

/-- The statistics header built by `smart_summarize_diff` (src/main.rs:239):
counts of lines starting with `"diff "`, with `'+'` and with `'-'`. -/
def statsHeaderL (lines : List (List Char)) : List Char :=
  "=== 통계 ===\n파일 ".data ++
    (Nat.repr (lines.filter (fun l => "diff ".data.isPrefixOf l)).length).data ++
  "개, +".data ++
    (Nat.repr (lines.filter (fun l => l.head? = some '+')).length).data ++
  " -".data ++
    (Nat.repr (lines.filter (fun l => l.head? = some '-')).length).data ++
  " 라인\n\n".data

/-- `2 ^ 64`, the modulus of Rust `usize` arithmetic on a 64-bit target. -/
def USIZE : Nat := 2 ^ 64

/-- Rust release-build `usize` subtraction: wraps modulo `2 ^ 64`
(the bare `max_tokens - stats_tokens` at src/main.rs:243 has no guard). -/
def wrappingSub (a b : Nat) : Nat :=
  (a + (USIZE - b % USIZE)) % USIZE

/-- The accumulation loop of `smart_summarize_diff` (src/main.rs:249-257):
append a line (plus newline) while the estimate of the grown body stays
strictly below `avail`; on the first line failing that, append the marker
and stop. -/
def summarizeLoop (avail : Nat) : List (List Char) → List Char → List Char
  | [], acc => acc
  | l :: ls, acc =>
    let lw := l ++ ['\n']
    if estL (acc ++ lw) < avail then summarizeLoop avail ls (acc ++ lw)
    else acc ++ markerL

/-- Rust `fn smart_summarize_diff(diff_content: &str, max_tokens: usize) -> String`
(src/main.rs:229): statistics header, then the input's lines accumulated
against `available_tokens = max_tokens - estimate_tokens(header)` (an
unchecked `usize` subtraction, modelled with wrapping semantics). -/
def smart_summarize_diff (diff_content : String) (max_tokens : Nat) : String :=
  let lines := rustLinesL diff_content.data
  let header := statsHeaderL lines
  let avail := wrappingSub max_tokens (estL header)
  ⟨header ++ summarizeLoop avail lines []⟩

/-- Outcome of one HTTP completion call, abstracting the transport of
`analyze_diff_with_openai` / `analyze_commit_with_openai`: either a success
with the response's list of choice contents, or a non-success status whose
body text was read. -/
inductive ClientResponse where
  | success : List String → ClientResponse
  | httpError : String → ClientResponse
deriving DecidableEq

/-- The size-rejection test at src/main.rs:416 / 709: the error body contains
one of the two literal substrings. -/
def sizeRejectionBody (body : String) : Bool :=
  isInfixOfL "context_length_exceeded".data body.data ||
  isInfixOfL "maximum context length".data body.data

/-- The terminal error message `"OpenAI API 요청 실패: {error_text}"`
(src/main.rs:551 / 843). -/
def errApiFail (body : String) : String :=
  "OpenAI API 요청 실패: " ++ body

/-- The terminal error `"OpenAI API에서 응답을 받지 못했습니다"`
(src/main.rs:554 / 846), reached when a success response has no choices. -/
def errNoResponse : String :=
  "OpenAI API에서 응답을 받지 못했습니다"

/-- The primary/fallback control flow of `analyze_diff_with_openai`
(src/main.rs:398-555) and `analyze_commit_with_openai` (identical structure,
src/main.rs:691-847), with the HTTP transport abstracted: `primary` is the
primary request's outcome and `fallback` the outcome the fallback request
would get if issued. Returns the function's result together with the total
number of requests issued. Note that when the fallback path fails (non-success
status, or success with no choices) control falls through to
`Err("OpenAI API 요청 실패: {error_text}")` where `error_text` is still the
primary response's body. -/
def analyzeRequestFlow (primary fallback : ClientResponse) :
    Except String String × Nat :=
  match primary with
  | .success choices =>
    match choices.head? with
    | some c => (.ok c, 1)
    | none => (.error errNoResponse, 1)
  | .httpError body =>
    if sizeRejectionBody body then
      match fallback with
      | .success choices =>
        match choices.head? with
        | some c => (.ok c, 2)
        | none => (.error (errApiFail body), 2)
      | .httpError _ => (.error (errApiFail body), 2)
    else (.error (errApiFail body), 1)

/-! ### Token estimator (C7) -/

theorem countP_not_isKorean (cs : List Char) :
    cs.countP (fun c => !isKoreanChar c) = cs.length - cs.countP isKoreanChar := by
  have h := List.length_eq_countP_add_countP isKoreanChar cs
  have h2 : cs.countP (fun a => decide (¬ isKoreanChar a = true)) =
      cs.countP (fun c => !isKoreanChar c) := by
    apply List.countP_congr
    intro a _
    simp
  omega

/-- C7: `estimate_tokens` returns (dense-script characters) +
⌊(other characters) / 4⌋, is non-negative, sends `""` to `0`, and sends any
all-dense string to its character count. Dense-script characters are exactly
the Hangul-syllable block `'가'..'힣'` tested by the source. -/
theorem estimate_tokens_spec :
    (∀ s : String, estimate_tokens s =
        s.data.countP isKoreanChar + s.data.countP (fun c => !isKoreanChar c) / 4 ∧
      0 ≤ estimate_tokens s) ∧
    estimate_tokens "" = 0 ∧
    (∀ s : String, s.data.all isKoreanChar = true →
      estimate_tokens s = s.data.length) := by
  refine ⟨fun s => ⟨?_, Nat.zero_le _⟩, by decide, fun s hs => ?_⟩
  · have h1 : (s.data.filter (fun c => !isKoreanChar c)).length =
        s.data.length - (s.data.filter isKoreanChar).length := by
      rw [← List.countP_eq_length_filter, ← List.countP_eq_length_filter,
        countP_not_isKorean]
    simp only [estimate_tokens, estL, List.countP_eq_length_filter]
    rw [h1]
  · have hfil : s.data.filter isKoreanChar = s.data :=
      List.filter_eq_self.mpr (List.all_eq_true.mp hs)
    simp [estimate_tokens, estL, hfil]

/-- C7 witness: a concrete all-dense string satisfies the hypothesis and the
conclusion of the all-dense clause. -/
theorem estimate_tokens_spec_witness :
    ("가힣".data.all isKoreanChar = true) ∧ estimate_tokens "가힣" = "가힣".data.length :=
  ⟨by decide, estimate_tokens_spec.2.2 "가힣" (by decide)⟩

/-! ### Path filter (C8) -/

theorem isInfixOfL_iff (pat cs : List Char) :
    isInfixOfL pat cs = true ↔ pat <:+: cs := by
  induction cs with
  | nil =>
    rw [isInfixOfL, List.isPrefixOf_iff_prefix, List.prefix_nil, List.infix_nil]
  | cons c cs ih =>
    simp only [isInfixOfL, Bool.or_eq_true, List.isPrefixOf_iff_prefix, ih,
      List.infix_cons_iff]

theorem isSuffixOfL_iff (pat cs : List Char) :
    isSuffixOfL pat cs = true ↔ pat <:+ cs := by
  rw [isSuffixOfL, List.isPrefixOf_iff_prefix, List.reverse_prefix]

/-- C8: `should_skip_file` returns `true` exactly when some pattern of the
fixed rule set occurs as a contiguous (case-sensitive) substring of the path
or is a suffix of it; it is a total boolean function. -/
theorem should_skip_file_iff (path : String) :
    should_skip_file path = true ↔
      ∃ pat ∈ skip_patterns, pat.data <:+: path.data ∨ pat.data <:+ path.data := by
  simp only [should_skip_file, shouldSkipL, List.any_eq_true, Bool.or_eq_true,
    isInfixOfL_iff, isSuffixOfL_iff]

/-- C8 witness: the `"dist/"` pattern excludes a path containing it, via the
characterisation. -/
theorem should_skip_file_iff_witness :
    should_skip_file "foo/dist/bar.js" = true :=
  (should_skip_file_iff "foo/dist/bar.js").mpr
    ⟨"dist/", by decide, Or.inl (by decide)⟩

/-! ### Budget truncation, zero/low budget (C1) -/

/-- C1 divergence: `smart_summarize_diff` has no defensive floor. The header
for input `"x"` estimates to 12 tokens, so for budgets 0 and 1 the `usize`
subtraction `max_tokens - stats_tokens` underflows (wrapping to about
`2 ^ 64` in release builds, panicking in debug builds); the wrapped
remaining budget admits the entire input, so the output is the header plus
the full input with no truncation marker — not "header plus marker" as the
specification's defensive floor requires. -/
theorem smart_summarize_diff_underflow :
    smart_summarize_diff "x" 0 = "=== 통계 ===\n파일 0개, +0 -0 라인\n\nx\n" ∧
    smart_summarize_diff "x" 1 = "=== 통계 ===\n파일 0개, +0 -0 라인\n\nx\n" := by
  constructor <;> decide

/-! ### Primary/fallback request flow (C2, C6) -/

/-- C2 counterexample: primary fails with a size rejection, fallback also
fails, yet the terminal error carries the *primary* body text and does not
contain the fallback's text — the claim says the fallback's text is carried
and the primary's is dropped. -/
theorem fallback_error_text_counterexample :
    (analyzeRequestFlow (.httpError "maximum context length reached AAA")
        (.httpError "fallback failed BBB")).1 =
      Except.error ("OpenAI API 요청 실패: " ++ "maximum context length reached AAA") ∧
    isInfixOfL "fallback failed BBB".data
      ("OpenAI API 요청 실패: " ++ "maximum context length reached AAA").data = false := by
  exact ⟨rfl, by decide⟩

/-- C2 amended: when the primary attempt fails with a size-rejection body
and the single fallback attempt then also fails (non-success, or success
with no choices), the terminal error carries the *primary* attempt's error
text (`"OpenAI API 요청 실패: " ++ primary body`); the fallback's error text
is never read. Exactly one fallback request is issued (2 requests total). -/
theorem fallback_error_carries_primary_text (pb : String) (fb : ClientResponse)
    (hsz : sizeRejectionBody pb = true)
    (hfb : ∀ ch, fb = ClientResponse.success ch → ch = []) :
    analyzeRequestFlow (.httpError pb) fb = (Except.error (errApiFail pb), 2) := by
  cases fb with
  | success ch =>
    have h : ch = [] := hfb ch rfl
    subst h
    simp [analyzeRequestFlow, hsz]
  | httpError b =>
    simp [analyzeRequestFlow, hsz]

/-- C2 witness: concrete size-rejected primary plus failing fallback. -/
theorem fallback_error_carries_primary_text_witness :
    sizeRejectionBody "context_length_exceeded" = true ∧
    analyzeRequestFlow (.httpError "context_length_exceeded") (.httpError "boom") =
      (Except.error (errApiFail "context_length_exceeded"), 2) :=
  ⟨by decide,
   fallback_error_carries_primary_text "context_length_exceeded" (.httpError "boom")
     (by decide) (fun ch h => by cases h)⟩

/-- C6: a second (fallback) request is issued iff the primary outcome is a
non-success response whose body contains one of the two literal size-limit
substrings; on any other non-success response the flow is terminal with the
single primary request. -/
theorem fallback_transition_iff (p f : ClientResponse) :
    ((analyzeRequestFlow p f).2 = 2 ↔
      ∃ b, p = ClientResponse.httpError b ∧ sizeRejectionBody b = true) ∧
    (∀ b, p = ClientResponse.httpError b → sizeRejectionBody b = false →
      analyzeRequestFlow p f = (Except.error (errApiFail b), 1)) := by
  constructor
  · cases p with
    | success ch =>
      cases h : ch.head? <;> simp [analyzeRequestFlow, h]
    | httpError b =>
      by_cases hb : sizeRejectionBody b = true
      · cases f with
        | success ch =>
          cases h : ch.head? <;> simp [analyzeRequestFlow, hb, h]
        | httpError b2 => simp [analyzeRequestFlow, hb]
      · simp only [Bool.not_eq_true] at hb
        simp [analyzeRequestFlow, hb]
  · intro b hp hb
    subst hp
    simp [analyzeRequestFlow, hb]

/-- C6 witness: an unrelated error body yields a terminal failure with one
request. -/
theorem fallback_transition_iff_witness :
    analyzeRequestFlow (.httpError "invalid api key") (.success ["y"]) =
      (Except.error (errApiFail "invalid api key"), 1) :=
  (fallback_transition_iff (.httpError "invalid api key") (.success ["y"])).2
    "invalid api key" rfl (by decide)

/-! ### Line splitting and joining -/

theorem joinNl_cons (l : List Char) (ls : List (List Char)) (h : ls ≠ []) :
    joinNl (l :: ls) = l ++ '\n' :: joinNl ls := by
  cases ls with
  | nil => exact absurd rfl h
  | cons x xs => rfl

theorem splitNl_cons_of_nl (cs : List Char) :
    splitNl ('\n' :: cs) = [] :: splitNl cs := by
  simp [splitNl, splitBy, splitByFirst, splitByRest, isNl]

theorem splitNl_cons_of_ne (c : Char) (cs : List Char) (hc : ¬ c = '\n') :
    splitNl (c :: cs) =
      (c :: splitByFirst isNl cs) :: splitByRest isNl cs := by
  simp [splitNl, splitBy, splitByFirst, splitByRest, isNl, hc]

theorem joinNl_splitNl (cs : List Char) : joinNl (splitNl cs) = cs := by
  induction cs with
  | nil => rfl
  | cons c cs ih =>
    by_cases hc : c = '\n'
    · subst hc
      rw [splitNl_cons_of_nl, joinNl_cons _ _ (by simp [splitNl, splitBy]), ih]
      rfl
    · rw [splitNl_cons_of_ne c cs hc]
      cases h2 : splitByRest isNl cs with
      | nil =>
        rw [joinNl]
        have h3 : joinNl (splitNl cs) = cs := ih
        rw [splitNl, splitBy, h2, joinNl] at h3
        rw [h3]
      | cons x xs =>
        rw [joinNl_cons _ _ (by simp)]
        have h3 : joinNl (splitNl cs) = cs := ih
        rw [splitNl, splitBy, h2, joinNl_cons _ _ (by simp)] at h3
        rw [List.cons_append, h3]

theorem splitNl_no_nl (cs : List Char) : ∀ l ∈ splitNl cs, '\n' ∉ l := by
  induction cs with
  | nil =>
    intro l hl
    simp only [splitNl, splitBy, splitByFirst, splitByRest, List.mem_singleton] at hl
    simp [hl]
  | cons c cs ih =>
    intro l hl
    by_cases hc : c = '\n'
    · subst hc
      rw [splitNl_cons_of_nl] at hl
      rcases List.mem_cons.mp hl with h | h
      · simp [h]
      · exact ih l h
    · rw [splitNl_cons_of_ne c cs hc] at hl
      rcases List.mem_cons.mp hl with h | h
      · subst h
        intro hmem
        rcases List.mem_cons.mp hmem with h | h
        · exact hc h.symm
        · exact ih _ (by simp [splitNl, splitBy]) h
      · exact ih l (by simp [splitNl, splitBy, h])

theorem splitNl_of_no_nl (cs : List Char) (h : '\n' ∉ cs) : splitNl cs = [cs] := by
  induction cs with
  | nil => rfl
  | cons c cs ih =>
    have hc : ¬ c = '\n' := fun he => h (he ▸ List.mem_cons_self c cs)
    have ih2 := ih (fun hm => h (List.mem_cons_of_mem c hm))
    rw [splitNl_cons_of_ne c cs hc]
    rw [splitNl, splitBy, List.cons.injEq] at ih2
    rw [ih2.1, ih2.2]

theorem splitNl_append_nl (xs ys : List Char) (h : '\n' ∉ xs) :
    splitNl (xs ++ '\n' :: ys) = xs :: splitNl ys := by
  induction xs with
  | nil => exact splitNl_cons_of_nl ys
  | cons x xs ih =>
    have hx : ¬ x = '\n' := fun he => h (he ▸ List.mem_cons_self x xs)
    have ih2 := ih (fun hm => h (List.mem_cons_of_mem x hm))
    rw [List.cons_append, splitNl_cons_of_ne x _ hx]
    have h4 : splitBy isNl (xs ++ '\n' :: ys) = xs :: splitNl ys := ih2
    rw [splitBy, List.cons.injEq] at h4
    rw [h4.1, h4.2]

theorem splitNl_joinNl (ls : List (List Char)) (hne : ls ≠ [])
    (h : ∀ l ∈ ls, '\n' ∉ l) : splitNl (joinNl ls) = ls := by
  induction ls with
  | nil => exact absurd rfl hne
  | cons l ls ih =>
    cases ls with
    | nil =>
      rw [joinNl]
      exact splitNl_of_no_nl l (h l (List.mem_cons_self _ _))
    | cons l2 ls2 =>
      rw [joinNl_cons _ _ (by simp)]
      rw [splitNl_append_nl _ _ (h l (List.mem_cons_self _ _))]
      rw [ih (by simp) (fun x hx => h x (List.mem_cons_of_mem l hx))]

/-! ### Rust `lines()` facts -/

theorem stripCr_subset (l : List Char) : stripCr l ⊆ l := by
  rw [stripCr]
  split
  · exact (List.dropLast_sublist l).subset
  · exact fun _ h => h

theorem mem_rustLinesPs (ps : List (List Char)) :
    ∀ l ∈ rustLinesPs ps, ∃ x ∈ ps, l = stripCr x ∨ l = x := by
  induction ps with
  | nil => intro l hl; simp [rustLinesPs] at hl
  | cons p ps ih =>
    intro l hl
    cases ps with
    | nil =>
      rw [rustLinesPs] at hl
      split at hl
      · simp at hl
      · rcases List.mem_singleton.mp hl with h
        exact ⟨p, List.mem_cons_self _ _, Or.inr h⟩
    | cons p2 ps2 =>
      have hl2 : l ∈ stripCr p :: rustLinesPs (p2 :: ps2) := hl
      rcases List.mem_cons.mp hl2 with h | h
      · exact ⟨p, List.mem_cons_self _ _, Or.inl h⟩
      · rcases ih l h with ⟨x, hx, hor⟩
        exact ⟨x, List.mem_cons_of_mem _ hx, hor⟩

theorem rustLinesL_no_nl (cs : List Char) : ∀ l ∈ rustLinesL cs, '\n' ∉ l := by
  intro l hl hmem
  rcases mem_rustLinesPs (splitNl cs) l hl with ⟨x, hx, hor⟩
  have hxn : '\n' ∉ x := splitNl_no_nl cs x hx
  rcases hor with h | h
  · exact hxn (stripCr_subset x (h ▸ hmem))
  · exact hxn (h ▸ hmem)

theorem rustLinesPs_eq_self (ps : List (List Char))
    (hcr : ∀ l ∈ ps, l.getLast? ≠ some '\r') (hlast : ps.getLast? ≠ some []) :
    rustLinesPs ps = ps := by
  induction ps with
  | nil => rfl
  | cons p ps ih =>
    cases ps with
    | nil =>
      have hp : ¬ p = [] := by
        intro he
        exact hlast (by simp [he])
      rw [rustLinesPs, if_neg hp]
    | cons p2 ps2 =>
      show stripCr p :: rustLinesPs (p2 :: ps2) = p :: p2 :: ps2
      have h1 : stripCr p = p := by
        rw [stripCr, if_neg (hcr p (List.mem_cons_self _ _))]
      rw [h1, ih (fun l hl => hcr l (List.mem_cons_of_mem _ hl))
        (by rw [List.getLast?_cons_cons] at hlast; exact hlast)]

theorem splitNl_getLast_ne_nil (cs : List Char) (hne : cs ≠ [])
    (h : cs.getLast? ≠ some '\n') : (splitNl cs).getLast? ≠ some [] := by
  induction cs with
  | nil => exact absurd rfl hne
  | cons c cs ih =>
    cases cs with
    | nil =>
      have hc : ¬ c = '\n' := by
        intro he
        exact h (by simp [he])
      rw [splitNl_cons_of_ne c [] hc]
      simp [splitByFirst, splitByRest]
    | cons c2 cs2 =>
      have h2 : (c2 :: cs2).getLast? ≠ some '\n' := by
        rw [List.getLast?_cons_cons] at h; exact h
      have ih2 := ih (by simp) h2
      by_cases hc : c = '\n'
      · subst hc
        rw [splitNl_cons_of_nl]
        rw [show ([] :: splitNl (c2 :: cs2)).getLast? = (splitNl (c2 :: cs2)).getLast? from
          List.getLast?_cons_cons]
        exact ih2
      · rw [splitNl_cons_of_ne c _ hc]
        cases h3 : splitByRest isNl (c2 :: cs2) with
        | nil => simp
        | cons x xs =>
          rw [List.getLast?_cons_cons]
          rw [splitNl, splitBy, h3, List.getLast?_cons_cons] at ih2
          exact ih2

theorem subset_joinNl (ls : List (List Char)) (l : List Char) (hl : l ∈ ls) :
    l ⊆ joinNl ls := by
  induction ls with
  | nil => simp at hl
  | cons x ls ih =>
    cases ls with
    | nil =>
      rw [List.mem_singleton] at hl
      subst hl
      exact fun a ha => ha
    | cons y ys =>
      rw [joinNl_cons _ _ (by simp)]
      rcases List.mem_cons.mp hl with h | h
      · subst h
        exact fun a ha => List.mem_append_left _ ha
      · exact fun a ha =>
          List.mem_append_right _ (List.mem_cons_of_mem _ (ih h ha))

theorem joinNl_rustLinesL (cs : List Char) (h1 : cs.getLast? ≠ some '\n')
    (h2 : '\r' ∉ cs) : joinNl (rustLinesL cs) = cs := by
  cases hcs : cs with
  | nil => rfl
  | cons c cs2 =>
    rw [← hcs]
    have hne : cs ≠ [] := by rw [hcs]; simp
    have hcr : ∀ l ∈ splitNl cs, l.getLast? ≠ some '\r' := by
      intro l hl he
      have hmem : '\r' ∈ l := List.mem_of_mem_getLast? he
      have : '\r' ∈ joinNl (splitNl cs) := subset_joinNl _ l hl hmem
      rw [joinNl_splitNl] at this
      exact h2 this
    rw [rustLinesL, rustLinesPs_eq_self (splitNl cs) hcr
      (splitNl_getLast_ne_nil cs hne h1), joinNl_splitNl]

/-! ### Scan invariants of `filter_large_generated_files` -/

/-- A line that starts a file section which the scan excludes: a boundary
line whose 4th whitespace field exists and, `b/`-trimmed, matches a skip
pattern. -/
def exclBoundary (l : List Char) : Bool :=
  isBoundary l &&
    (match (splitWsL l)[3]? with
     | some fp => shouldSkipL (trimStartMatchesB fp)
     | none => false)

theorem filterLinesAux_eq_self (ls : List (List Char))
    (h : ∀ l ∈ ls, exclBoundary l = false) : filterLinesAux false ls = ls := by
  induction ls with
  | nil => rfl
  | cons l ls ih =>
    have hl := h l (List.mem_cons_self _ _)
    have ihr := ih (fun x hx => h x (List.mem_cons_of_mem _ hx))
    by_cases hb : isBoundary l = true
    · cases hfp : (splitWsL l)[3]? with
      | some fp =>
        have hskip : shouldSkipL (trimStartMatchesB fp) = false := by
          rw [exclBoundary, hb, hfp] at hl
          simpa using hl
        simp [filterLinesAux, hb, hfp, hskip, ihr]
      | none => simp [filterLinesAux, hb, hfp, ihr]
    · simp only [Bool.not_eq_true] at hb
      simp [filterLinesAux, hb, ihr]

theorem excl_false_of_mem_filterLinesAux (ls : List (List Char)) :
    ∀ (b : Bool), ∀ l ∈ filterLinesAux b ls, exclBoundary l = false := by
  induction ls with
  | nil => intro b l hl; simp [filterLinesAux] at hl
  | cons x ls ih =>
    intro b l hl
    by_cases hb : isBoundary x = true
    · cases hfp : (splitWsL x)[3]? with
      | some fp =>
        by_cases hskip : shouldSkipL (trimStartMatchesB fp) = true
        · rw [show filterLinesAux b (x :: ls) = filterLinesAux true ls by
            simp [filterLinesAux, hb, hfp, hskip]] at hl
          exact ih true l hl
        · simp only [Bool.not_eq_true] at hskip
          rw [show filterLinesAux b (x :: ls) = x :: filterLinesAux false ls by
            simp [filterLinesAux, hb, hfp, hskip]] at hl
          rcases List.mem_cons.mp hl with h | h
          · subst h
            rw [exclBoundary, hb, hfp]
            simp [hskip]
          · exact ih false l h
      | none =>
        rw [show filterLinesAux b (x :: ls) = x :: filterLinesAux false ls by
          simp [filterLinesAux, hb, hfp]] at hl
        rcases List.mem_cons.mp hl with h | h
        · subst h
          rw [exclBoundary, hb, hfp]
          simp
        · exact ih false l h
    · simp only [Bool.not_eq_true] at hb
      cases b with
      | true =>
        rw [show filterLinesAux true (x :: ls) = filterLinesAux true ls by
          simp [filterLinesAux, hb]] at hl
        exact ih true l hl
      | false =>
        rw [show filterLinesAux false (x :: ls) = x :: filterLinesAux false ls by
          simp [filterLinesAux, hb]] at hl
        rcases List.mem_cons.mp hl with h | h
        · subst h
          rw [exclBoundary, hb]
          simp
        · exact ih false l h

theorem filterLinesAux_sublist (ls : List (List Char)) :
    ∀ b : Bool, (filterLinesAux b ls).Sublist ls := by
  induction ls with
  | nil => intro b; simp [filterLinesAux]
  | cons x ls ih =>
    intro b
    by_cases hb : isBoundary x = true
    · cases hfp : (splitWsL x)[3]? with
      | some fp =>
        by_cases hskip : shouldSkipL (trimStartMatchesB fp) = true
        · rw [show filterLinesAux b (x :: ls) = filterLinesAux true ls by
            simp [filterLinesAux, hb, hfp, hskip]]
          exact (ih true).cons x
        · simp only [Bool.not_eq_true] at hskip
          rw [show filterLinesAux b (x :: ls) = x :: filterLinesAux false ls by
            simp [filterLinesAux, hb, hfp, hskip]]
          exact (ih false).cons₂ x
      | none =>
        rw [show filterLinesAux b (x :: ls) = x :: filterLinesAux false ls by
          simp [filterLinesAux, hb, hfp]]
        exact (ih false).cons₂ x
    · simp only [Bool.not_eq_true] at hb
      cases b with
      | true =>
        rw [show filterLinesAux true (x :: ls) = filterLinesAux true ls by
          simp [filterLinesAux, hb]]
        exact (ih true).cons x
      | false =>
        rw [show filterLinesAux false (x :: ls) = x :: filterLinesAux false ls by
          simp [filterLinesAux, hb]]
        exact (ih false).cons₂ x

theorem splitByFirst_append_sep (p : Char → Bool) (c : Char) (hc : p c = true)
    (xs : List Char) : splitByFirst p (xs ++ [c]) = splitByFirst p xs := by
  induction xs with
  | nil => simp [splitByFirst, hc]
  | cons a xs ih =>
    by_cases ha : p a = true
    · simp [splitByFirst, ha]
    · simp only [Bool.not_eq_true] at ha
      simp [splitByFirst, ha, ih]

theorem splitByRest_filter_append_sep (p : Char → Bool) (c : Char)
    (hc : p c = true) (xs : List Char) :
    (splitByRest p (xs ++ [c])).filter nonEmptyPiece =
      (splitByRest p xs).filter nonEmptyPiece := by
  induction xs with
  | nil => simp [splitByRest, splitByFirst, hc, nonEmptyPiece]
  | cons a xs ih =>
    by_cases ha : p a = true
    · rw [List.cons_append,
        show splitByRest p (a :: (xs ++ [c])) =
          splitByFirst p (xs ++ [c]) :: splitByRest p (xs ++ [c]) by
            simp [splitByRest, ha],
        show splitByRest p (a :: xs) = splitByFirst p xs :: splitByRest p xs by
          simp [splitByRest, ha],
        List.filter_cons, List.filter_cons, splitByFirst_append_sep p c hc xs, ih]
    · simp only [Bool.not_eq_true] at ha
      rw [List.cons_append,
        show splitByRest p (a :: (xs ++ [c])) = splitByRest p (xs ++ [c]) by
          simp [splitByRest, ha],
        show splitByRest p (a :: xs) = splitByRest p xs by simp [splitByRest, ha]]
      exact ih

theorem splitWsL_append_ws (xs : List Char) (c : Char)
    (hc : rustIsWhitespace c = true) : splitWsL (xs ++ [c]) = splitWsL xs := by
  rw [splitWsL, splitWsL, splitBy, splitBy, List.filter_cons, List.filter_cons,
    splitByFirst_append_sep rustIsWhitespace c hc xs,
    splitByRest_filter_append_sep rustIsWhitespace c hc xs]

theorem exclBoundary_stripCr (l : List Char)
    (h : exclBoundary (stripCr l) = true) : exclBoundary l = true := by
  by_cases hcr : l.getLast? = some '\r'
  · have hne : l ≠ [] := by
      intro he
      rw [he] at hcr
      simp at hcr
    have hlast : l.getLast hne = '\r' := by
      have := List.getLast?_eq_getLast l hne
      rw [hcr] at this
      exact (Option.some.injEq _ _ ▸ this.symm :)
    have hdec : l.dropLast ++ ['\r'] = l := by
      rw [← hlast]
      exact List.dropLast_append_getLast hne
    have hs : stripCr l = l.dropLast := by rw [stripCr, if_pos hcr]
    rw [hs] at h
    rw [exclBoundary, Bool.and_eq_true] at h ⊢
    constructor
    · have hb : isBoundary l.dropLast = true := h.1
      rw [isBoundary, List.isPrefixOf_iff_prefix] at hb ⊢
      have hdl : l.dropLast <+: l := by
        conv_rhs => rw [← hdec]
        exact List.prefix_append l.dropLast ['\r']
      exact hb.trans hdl
    · have hws : splitWsL l = splitWsL l.dropLast := by
        conv_lhs => rw [← hdec]
        exact splitWsL_append_ws l.dropLast '\r' (by decide)
      rw [hws]
      exact h.2
  · rw [stripCr, if_neg hcr] at h
    exact h

/-! ### DiffFilter pass-through (C3) and idempotence (C9) -/

/-- C3 counterexample: `"a\n"` contains no line starting with
`"diff --git"`, yet `filter_large_generated_files` drops the trailing
newline (Rust `lines()` + `join("\n")` is not the identity), so the result
is not exactly equal to the input. -/
theorem filter_unchanged_counterexample :
    ((rustLinesL "a\n".data).all (fun l => !isBoundary l) = true) ∧
    filter_large_generated_files "a\n" ≠ "a\n" := by
  constructor <;> decide

theorem excl_false_of_no_boundary (ls : List (List Char))
    (h : ls.all (fun l => !isBoundary l) = true) :
    ∀ l ∈ ls, exclBoundary l = false := by
  intro l hl
  have hb := List.all_eq_true.mp h l hl
  rw [Bool.not_eq_true'] at hb
  rw [exclBoundary, hb]
  rfl

/-- C3 amended: on an input with zero boundary-marker lines the filter keeps
every line, so the output is the input's lines re-joined with `"\n"`; it is
exactly equal to the original string whenever the original does not end with
a newline and contains no carriage return (otherwise only the trailing
newline / CR-LF normalisation of the line round-trip differs). -/
theorem filter_no_boundary_pass_through (s : String)
    (h : (rustLinesL s.data).all (fun l => !isBoundary l) = true) :
    filter_large_generated_files s = ⟨joinNl (rustLinesL s.data)⟩ ∧
    (s.data.getLast? ≠ some '\n' → '\r' ∉ s.data →
      filter_large_generated_files s = s) := by
  have hkeep : filterLinesAux false (rustLinesL s.data) = rustLinesL s.data :=
    filterLinesAux_eq_self _ (excl_false_of_no_boundary _ h)
  constructor
  · rw [filter_large_generated_files, hkeep]
  · intro h1 h2
    rw [filter_large_generated_files, hkeep]
    exact String.ext (joinNl_rustLinesL s.data h1 h2)

/-- C3 witness: a concrete boundary-free input with no trailing newline
passes through unchanged. -/
theorem filter_no_boundary_pass_through_witness :
    filter_large_generated_files "ab\ncd" = "ab\ncd" :=
  (filter_no_boundary_pass_through "ab\ncd" (by decide)).2 (by decide) (by decide)

/-- C9 counterexample: re-filtering is not exact string idempotence — the
input `"a\n\n"` (no sections excluded at all) filters to `"a\n"`, which
filters again to `"a"`, because the re-join drops the trailing empty line. -/
theorem filter_idempotent_counterexample :
    filter_large_generated_files (filter_large_generated_files "a\n\n") ≠
      filter_large_generated_files "a\n\n" := by
  decide

/-- C9 amended: re-filtering removes no further sections — a second pass
keeps every line of the first pass's output; consequently
`filter ∘ filter = filter` as strings exactly when the first output's line
list re-joins to the output itself (which can only fail by trailing-empty-
line / CR-LF normalisation, never by a section being removed). -/
theorem filter_refilter_no_sections_removed (s : String) :
    filterLinesAux false (rustLinesL (filter_large_generated_files s).data) =
      rustLinesL (filter_large_generated_files s).data ∧
    (joinNl (rustLinesL (filter_large_generated_files s).data) =
        (filter_large_generated_files s).data →
      filter_large_generated_files (filter_large_generated_files s) =
        filter_large_generated_files s) := by
  have hout : (filter_large_generated_files s).data =
      joinNl (filterLinesAux false (rustLinesL s.data)) := rfl
  have hpart1 : filterLinesAux false
      (rustLinesL (filter_large_generated_files s).data) =
      rustLinesL (filter_large_generated_files s).data := by
    apply filterLinesAux_eq_self
    intro l hl
    rw [hout] at hl
    cases hls : filterLinesAux false (rustLinesL s.data) with
    | nil =>
      rw [hls] at hl
      simp [rustLinesL, splitNl, splitBy, splitByFirst, splitByRest,
        rustLinesPs, joinNl] at hl
    | cons x xs =>
      have hnn : ∀ y ∈ filterLinesAux false (rustLinesL s.data), '\n' ∉ y := by
        intro y hy
        exact rustLinesL_no_nl s.data y
          ((filterLinesAux_sublist _ false).subset hy)
      have hsplit : splitNl (joinNl (filterLinesAux false (rustLinesL s.data))) =
          filterLinesAux false (rustLinesL s.data) := by
        apply splitNl_joinNl _ (by rw [hls]; simp) hnn
      rw [rustLinesL, hsplit] at hl
      rcases mem_rustLinesPs _ l hl with ⟨y, hy, hor⟩
      have hyexcl : exclBoundary y = false :=
        excl_false_of_mem_filterLinesAux _ false y hy
      rcases hor with he | he
      · subst he
        cases hsc : exclBoundary (stripCr y) with
        | false => rfl
        | true => rw [exclBoundary_stripCr y hsc] at hyexcl; cases hyexcl
      · subst he
        exact hyexcl
  refine ⟨hpart1, fun hjoin => ?_⟩
  have : filter_large_generated_files (filter_large_generated_files s) =
      ⟨joinNl (filterLinesAux false
        (rustLinesL (filter_large_generated_files s).data))⟩ := rfl
  rw [this, hpart1, hjoin]

/-- C9 witness: on a concrete input whose filtered output round-trips,
re-filtering is the identity. -/
theorem filter_refilter_witness :
    filter_large_generated_files (filter_large_generated_files "a\nb") =
      filter_large_generated_files "a\nb" :=
  (filter_refilter_no_sections_removed "a\nb").2 (by decide)

/-! ### Section decomposition of the diff (C5, C10) -/

/-- A line that does not start a new file section. -/
def notBoundary (l : List Char) : Bool := !isBoundary l

theorem length_dropWhile_le' {α : Type} (p : α → Bool) (l : List α) :
    (l.dropWhile p).length ≤ l.length := by
  induction l with
  | nil => simp [List.dropWhile]
  | cons a l ih =>
    rw [List.dropWhile_cons]
    split
    · exact le_trans ih (Nat.le_succ _)
    · exact le_refl _

theorem takeWhile_dropWhile_self {α : Type} (p : α → Bool) (l : List α) :
    List.takeWhile p (List.dropWhile p l) = [] := by
  induction l with
  | nil => rfl
  | cons a l ih =>
    rw [List.dropWhile_cons]
    split
    · exact ih
    · rw [List.takeWhile_cons]
      simp_all

theorem dropWhile_dropWhile_self {α : Type} (p : α → Bool) (l : List α) :
    List.dropWhile p (List.dropWhile p l) = List.dropWhile p l := by
  induction l with
  | nil => rfl
  | cons a l ih =>
    rw [List.dropWhile_cons]
    split
    · exact ih
    · rw [List.dropWhile_cons]
      simp_all

/-- The FileSections of a line list whose head is a boundary line: each
section is its boundary line followed by the run of non-boundary lines up to
the next boundary. Modelled from the spec (§4.3): "A line matching the
diff-file-boundary marker format starts a new FileSection". -/
def specSections (ls : List (List Char)) : List (List (List Char)) :=
  match ls with
  | [] => []
  | b :: rest =>
    (b :: rest.takeWhile notBoundary) ::
      specSections (rest.dropWhile notBoundary)
termination_by ls.length
decreasing_by
  simp only [List.length_cons]
  exact Nat.lt_succ_of_le (length_dropWhile_le' notBoundary rest)

/-- The filtered diff according to the spec's wording (§4.3): the preamble
(lines before the first boundary marker) always passes; each FileSection is
kept whole iff its boundary line's extracted path is not excluded; output
order is the original order. -/
def specFilterLines (ls : List (List Char)) : List (List Char) :=
  ls.takeWhile notBoundary ++
    ((specSections (ls.dropWhile notBoundary)).filter
      (fun sec => !exclBoundary sec.headI)).flatten

theorem specSections_nil : specSections [] = [] := by
  rw [specSections]

theorem specSections_cons (b : List Char) (rest : List (List Char)) :
    specSections (b :: rest) =
      (b :: rest.takeWhile notBoundary) ::
        specSections (rest.dropWhile notBoundary) := by
  rw [specSections]

theorem specFilterLines_nil : specFilterLines [] = [] := by
  simp [specFilterLines, specSections_nil]

theorem specFilterLines_dropWhile (rest : List (List Char)) :
    specFilterLines (rest.dropWhile notBoundary) =
      ((specSections (rest.dropWhile notBoundary)).filter
        (fun sec => !exclBoundary sec.headI)).flatten := by
  rw [specFilterLines, takeWhile_dropWhile_self, dropWhile_dropWhile_self]
  rfl

theorem filterLinesAux_true_eq (ls : List (List Char)) :
    filterLinesAux true ls = filterLinesAux false (ls.dropWhile notBoundary) := by
  induction ls with
  | nil => rfl
  | cons l ls ih =>
    by_cases hb : isBoundary l = true
    · have hnb : notBoundary l = false := by rw [notBoundary, hb]; rfl
      rw [List.dropWhile_cons, hnb]
      simp only [Bool.false_eq_true, if_false]
      simp [filterLinesAux, hb]
    · have hb2 : isBoundary l = false := by
        rw [← Bool.not_eq_true]; exact hb
      have hnb : notBoundary l = true := by rw [notBoundary, hb2]; rfl
      rw [List.dropWhile_cons, hnb]
      simp only [if_true]
      rw [show filterLinesAux true (l :: ls) = filterLinesAux true ls by
        simp [filterLinesAux, hb2]]
      exact ih

theorem filterLinesAux_false_pre (pre rest : List (List Char))
    (h : ∀ l ∈ pre, isBoundary l = false) :
    filterLinesAux false (pre ++ rest) = pre ++ filterLinesAux false rest := by
  induction pre with
  | nil => rfl
  | cons x pre ih =>
    have hx := h x (List.mem_cons_self _ _)
    rw [List.cons_append,
      show filterLinesAux false (x :: (pre ++ rest)) =
        x :: filterLinesAux false (pre ++ rest) by simp [filterLinesAux, hx],
      ih (fun l hl => h l (List.mem_cons_of_mem _ hl))]
    rfl

theorem filterLines_eq_spec (n : Nat) :
    ∀ ls : List (List Char), ls.length ≤ n →
      filterLinesAux false ls = specFilterLines ls := by
  induction n with
  | zero =>
    intro ls hls
    have h0 : ls = [] := List.eq_nil_of_length_eq_zero (Nat.le_zero.mp hls)
    subst h0
    rw [specFilterLines_nil]
    rfl
  | succ n ih =>
    intro ls hls
    cases ls with
    | nil =>
      rw [specFilterLines_nil]
      rfl
    | cons l rest =>
      rw [List.length_cons, Nat.succ_le_succ_iff] at hls
      by_cases hb : isBoundary l = true
      · have hnb : notBoundary l = false := by rw [notBoundary, hb]; rfl
        have hspec : specFilterLines (l :: rest) =
            (((l :: rest.takeWhile notBoundary) ::
              specSections (rest.dropWhile notBoundary)).filter
              (fun sec => !exclBoundary sec.headI)).flatten := by
          rw [specFilterLines, List.takeWhile_cons, hnb]
          simp only [Bool.false_eq_true, if_false, List.nil_append]
          rw [List.dropWhile_cons, hnb]
          simp only [Bool.false_eq_true, if_false]
          rw [specSections_cons]
        cases hfp : (splitWsL l)[3]? with
        | some fp =>
          by_cases hskip : shouldSkipL (trimStartMatchesB fp) = true
          · have hexcl : exclBoundary l = true := by
              rw [exclBoundary, hb, hfp]
              simp [hskip]
            rw [show filterLinesAux false (l :: rest) = filterLinesAux true rest by
              simp [filterLinesAux, hb, hfp, hskip]]
            rw [filterLinesAux_true_eq,
              ih _ (le_trans (length_dropWhile_le' _ _) hls),
              specFilterLines_dropWhile, hspec, List.filter_cons]
            have hhead : (!exclBoundary (l :: rest.takeWhile notBoundary).headI) =
                false := by
              simp [List.headI, hexcl]
            rw [hhead]
            simp
          · have hskip2 : shouldSkipL (trimStartMatchesB fp) = false := by
              rw [← Bool.not_eq_true]; exact hskip
            have hexcl : exclBoundary l = false := by
              rw [exclBoundary, hb, hfp]
              simp [hskip2]
            rw [show filterLinesAux false (l :: rest) =
                l :: filterLinesAux false rest by
              simp [filterLinesAux, hb, hfp, hskip2]]
            have hrest : filterLinesAux false rest =
                rest.takeWhile notBoundary ++
                  filterLinesAux false (rest.dropWhile notBoundary) := by
              conv_lhs => rw [← List.takeWhile_append_dropWhile notBoundary rest]
              apply filterLinesAux_false_pre
              intro x hx
              have := List.mem_takeWhile_imp hx
              rw [notBoundary] at this
              rw [← Bool.not_eq_true]
              simp at this
              simp [this]
            rw [hrest, ih _ (le_trans (length_dropWhile_le' _ _) hls),
              specFilterLines_dropWhile, hspec, List.filter_cons]
            have hhead : (!exclBoundary (l :: rest.takeWhile notBoundary).headI) =
                true := by
              simp [List.headI, hexcl]
            rw [hhead]
            simp
        | none =>
          have hexcl : exclBoundary l = false := by
            rw [exclBoundary, hb, hfp]
            rfl
          rw [show filterLinesAux false (l :: rest) =
              l :: filterLinesAux false rest by
            simp [filterLinesAux, hb, hfp]]
          have hrest : filterLinesAux false rest =
              rest.takeWhile notBoundary ++
                filterLinesAux false (rest.dropWhile notBoundary) := by
            conv_lhs => rw [← List.takeWhile_append_dropWhile notBoundary rest]
            apply filterLinesAux_false_pre
            intro x hx
            have := List.mem_takeWhile_imp hx
            rw [notBoundary] at this
            rw [← Bool.not_eq_true]
            simp at this
            simp [this]
          rw [hrest, ih _ (le_trans (length_dropWhile_le' _ _) hls),
            specFilterLines_dropWhile, hspec, List.filter_cons]
          have hhead : (!exclBoundary (l :: rest.takeWhile notBoundary).headI) =
              true := by
            simp [List.headI, hexcl]
          rw [hhead]
          simp
      · have hb2 : isBoundary l = false := by
          rw [← Bool.not_eq_true]; exact hb
        have hnb : notBoundary l = true := by rw [notBoundary, hb2]; rfl
        have hspec2 : specFilterLines (l :: rest) = l :: specFilterLines rest := by
          simp only [specFilterLines, List.takeWhile_cons, List.dropWhile_cons, hnb]
          simp
        rw [show filterLinesAux false (l :: rest) =
            l :: filterLinesAux false rest by simp [filterLinesAux, hb2]]
        rw [ih rest hls, hspec2]

/-- C5: the stateful line scan of `filter_large_generated_files` equals the
section-based description of the spec — the preamble always passes, each
section (boundary line included) passes whole iff its boundary's 4th
whitespace field, `b/`-trimmed, is not excluded by the path filter, excluded
sections are dropped whole (boundary line and all lines up to, not
including, the next boundary), and the output keeps the original order (the
kept lines form a sublist of the input lines). -/
theorem filter_matches_section_spec (s : String) :
    filter_large_generated_files s =
      ⟨joinNl (specFilterLines (rustLinesL s.data))⟩ ∧
    (filterLinesAux false (rustLinesL s.data)).Sublist (rustLinesL s.data) := by
  constructor
  · rw [filter_large_generated_files,
      filterLines_eq_spec (rustLinesL s.data).length _ (le_refl _)]
  · exact filterLinesAux_sublist _ false

/-- C10: a line starting with `"diff --git"` but having fewer than 4
whitespace-separated fields resets the exclusion state: whatever the prior
skip state, the line itself and every following line up to the next boundary
marker are kept. -/
theorem malformed_boundary_resets (skip : Bool) (l : List Char)
    (rest : List (List Char)) (hb : isBoundary l = true)
    (hlen : (splitWsL l).length < 4) :
    filterLinesAux skip (l :: rest) =
      l :: (rest.takeWhile notBoundary ++
        filterLinesAux false (rest.dropWhile notBoundary)) := by
  have hfp : (splitWsL l)[3]? = none := List.getElem?_eq_none (by omega)
  rw [show filterLinesAux skip (l :: rest) = l :: filterLinesAux false rest by
    simp [filterLinesAux, hb, hfp]]
  have hrest : filterLinesAux false rest =
      rest.takeWhile notBoundary ++
        filterLinesAux false (rest.dropWhile notBoundary) := by
    conv_lhs => rw [← List.takeWhile_append_dropWhile notBoundary rest]
    apply filterLinesAux_false_pre
    intro x hx
    have := List.mem_takeWhile_imp hx
    rw [notBoundary] at this
    rw [← Bool.not_eq_true]
    simp at this
    simp [this]
  rw [hrest]

/-- C10 witness: with the skip state set by a previous excluded section, a
malformed boundary line (`"diff --git"` alone has 2 fields) and the
following context line are both kept. -/
theorem malformed_boundary_resets_witness :
    filterLinesAux true ["diff --git".data, "ctx".data] =
      ["diff --git".data, "ctx".data] := by
  rw [malformed_boundary_resets true "diff --git".data ["ctx".data]
    (by decide) (by decide)]
  decide

/-! ### Budget truncation, full characterisation (C4) -/

/-- The lines of a diff, each re-terminated with `'\n'`, concatenated — the
shape of the truncated body accumulated by `smart_summarize_diff`. -/
def concatLinesNl (ls : List (List Char)) : List Char :=
  (ls.map (fun l => l ++ ['\n'])).flatten

/-- The statistics header as the spec words it, via occurrence counts:
lines beginning with `"diff "`, with `'+'`, and with `'-'`. -/
def statsHeaderSpec (lines : List (List Char)) : List Char :=
  "=== 통계 ===\n파일 ".data ++
    (Nat.repr (lines.countP (fun l => "diff ".data.isPrefixOf l))).data ++
  "개, +".data ++
    (Nat.repr (lines.countP (fun l => l.head? = some '+'))).data ++
  " -".data ++
    (Nat.repr (lines.countP (fun l => l.head? = some '-'))).data ++
  " 라인\n\n".data

theorem statsHeaderSpec_eq (lines : List (List Char)) :
    statsHeaderSpec lines = statsHeaderL lines := by
  simp only [statsHeaderSpec, statsHeaderL, List.countP_eq_length_filter]

theorem concatLinesNl_nil : concatLinesNl [] = [] := rfl

theorem concatLinesNl_cons (l : List Char) (ls : List (List Char)) :
    concatLinesNl (l :: ls) = (l ++ ['\n']) ++ concatLinesNl ls := by
  simp [concatLinesNl]

theorem concatLinesNl_one (l : List Char) :
    concatLinesNl [l] = l ++ ['\n'] := by
  simp [concatLinesNl]

/-- The loop of `smart_summarize_diff` keeps exactly a greedy prefix of the
lines: there is a `k` such that the output is the accumulator followed by
the first `k` lines (each with `'\n'`), plus the marker iff lines remain;
every kept prefix estimates strictly below `avail`, and if a line was cut,
the first cut line would have reached `avail`. -/
theorem summarizeLoop_spec (avail : Nat) (ls : List (List Char)) :
    ∀ acc : List Char, ∃ k, k ≤ ls.length ∧
      summarizeLoop avail ls acc =
        acc ++ concatLinesNl (ls.take k) ++
          (if k < ls.length then markerL else []) ∧
      (∀ i, i < k → estL (acc ++ concatLinesNl (ls.take (i + 1))) < avail) ∧
      (k < ls.length →
        avail ≤ estL (acc ++ concatLinesNl (ls.take (k + 1)))) := by
  induction ls with
  | nil =>
    intro acc
    refine ⟨0, le_refl _, ?_, fun i hi => absurd hi (Nat.not_lt_zero i),
      fun h => absurd h (lt_irrefl 0)⟩
    simp [summarizeLoop, concatLinesNl]
  | cons l ls ih =>
    intro acc
    by_cases hc : estL (acc ++ (l ++ ['\n'])) < avail
    · rcases ih (acc ++ (l ++ ['\n'])) with ⟨k, hk, heq, hlt, hend⟩
      refine ⟨k + 1, Nat.succ_le_succ hk, ?_, ?_, ?_⟩
      · rw [show summarizeLoop avail (l :: ls) acc =
            summarizeLoop avail ls (acc ++ (l ++ ['\n'])) by
          simp [summarizeLoop, hc]]
        rw [heq, List.take_succ_cons, concatLinesNl_cons]
        have hif : (if k + 1 < (l :: ls).length then markerL else []) =
            (if k < ls.length then markerL else []) := by
          simp [List.length_cons, Nat.succ_lt_succ_iff]
        rw [hif]
        simp [List.append_assoc]
      · intro i hi
        cases i with
        | zero =>
          rw [List.take_succ_cons, List.take_zero, concatLinesNl_one]
          exact hc
        | succ j =>
          have hj : j < k := Nat.lt_of_succ_lt_succ hi
          have h2 := hlt j hj
          rw [List.take_succ_cons, concatLinesNl_cons, ← List.append_assoc]
          exact h2
      · intro hk1
        have hk2 : k < ls.length := by
          rw [List.length_cons] at hk1
          exact Nat.lt_of_succ_lt_succ hk1
        have h2 := hend hk2
        rw [List.take_succ_cons, concatLinesNl_cons, ← List.append_assoc]
        exact h2
    · refine ⟨0, Nat.zero_le _, ?_, fun i hi => absurd hi (Nat.not_lt_zero i),
        fun _ => ?_⟩
      · rw [show summarizeLoop avail (l :: ls) acc = acc ++ markerL by
          simp [summarizeLoop, hc]]
        simp [concatLinesNl]
      · rw [List.take_succ_cons, List.take_zero, concatLinesNl_one]
        exact Nat.le_of_not_lt hc

theorem wrappingSub_eq_sub (a b : Nat) (hb : b ≤ a) (ha : a < USIZE) :
    wrappingSub a b = a - b := by
  rw [wrappingSub]
  have h1 : b % USIZE = b := Nat.mod_eq_of_lt (lt_of_le_of_lt hb ha)
  rw [h1]
  have h2 : a + (USIZE - b) = USIZE + (a - b) := by omega
  rw [h2, Nat.add_mod_left, Nat.mod_eq_of_lt (by omega)]

/-- The truncator exactly as claim C4 words it, used for refutation: it
differs from the source only in the header's file count, counting lines
that begin with the boundary marker `"diff --git"` where the source counts
lines that begin with `"diff "`. -/
def claimStatsHeaderL (lines : List (List Char)) : List Char :=
  "=== 통계 ===\n파일 ".data ++
    (Nat.repr (lines.countP (fun l => isBoundary l))).data ++
  "개, +".data ++
    (Nat.repr (lines.countP (fun l => l.head? = some '+'))).data ++
  " -".data ++
    (Nat.repr (lines.countP (fun l => l.head? = some '-'))).data ++
  " 라인\n\n".data

/-- `smart_summarize_diff` as claim C4 describes it (boundary-marker file
count, otherwise identical). -/
def claimSummarize (diff_content : String) (max_tokens : Nat) : String :=
  let lines := rustLinesL diff_content.data
  let header := claimStatsHeaderL lines
  ⟨header ++ summarizeLoop (max_tokens - estL header) lines []⟩

/-- C4 counterexample: on the input `"diff x"` — a line that begins with
`"diff "` but not with the boundary marker `"diff --git"` — the source
header reports 1 file while the claim's boundary-marker count reports 0, so
the outputs differ. -/
theorem smart_summarize_header_counterexample :
    smart_summarize_diff "diff x" 1000 ≠ claimSummarize "diff x" 1000 := by
  decide

/-- C4 amended: for any budget representable in `usize` and at least the
header's estimate, `smart_summarize_diff` emits the statistics header
(counting lines beginning with `"diff "` — not only full boundary markers —
lines beginning with `'+'`, `'+++'` included, and lines beginning with
`'-'`), then a greedy prefix of the input lines, each with a trailing
newline, kept only while the accumulated body estimates strictly under
`budget - estimate(header)`; at the first line that would reach the
remaining budget the fixed marker is appended and all later lines are
dropped. -/
theorem smart_summarize_spec (s : String) (budget : Nat)
    (hbu : budget < USIZE)
    (hh : estL (statsHeaderSpec (rustLinesL s.data)) ≤ budget) :
    ∃ k, k ≤ (rustLinesL s.data).length ∧
      smart_summarize_diff s budget =
        ⟨statsHeaderSpec (rustLinesL s.data) ++
          (concatLinesNl ((rustLinesL s.data).take k) ++
            (if k < (rustLinesL s.data).length then markerL else []))⟩ ∧
      (∀ i, i < k →
        estL (concatLinesNl ((rustLinesL s.data).take (i + 1))) <
          budget - estL (statsHeaderSpec (rustLinesL s.data))) ∧
      (k < (rustLinesL s.data).length →
        budget - estL (statsHeaderSpec (rustLinesL s.data)) ≤
          estL (concatLinesNl ((rustLinesL s.data).take (k + 1)))) := by
  rw [statsHeaderSpec_eq] at hh ⊢
  have havail : wrappingSub budget (estL (statsHeaderL (rustLinesL s.data))) =
      budget - estL (statsHeaderL (rustLinesL s.data)) :=
    wrappingSub_eq_sub _ _ hh hbu
  rcases summarizeLoop_spec
      (budget - estL (statsHeaderL (rustLinesL s.data)))
      (rustLinesL s.data) [] with ⟨k, hk, heq, hlt, hend⟩
  refine ⟨k, hk, ?_, ?_, ?_⟩
  · show (⟨statsHeaderL (rustLinesL s.data) ++
        summarizeLoop
          (wrappingSub budget (estL (statsHeaderL (rustLinesL s.data))))
          (rustLinesL s.data) []⟩ : String) = _
    rw [havail, heq, List.nil_append]
  · intro i hi
    have h2 := hlt i hi
    rw [List.nil_append] at h2
    exact h2
  · intro h1
    have h2 := hend h1
    rw [List.nil_append] at h2
    exact h2

/-- C4 witness: the characterisation applied at a concrete small diff and
budget. -/
theorem smart_summarize_spec_witness :
    ∃ k, k ≤ (rustLinesL "+a\n-b".data).length ∧
      smart_summarize_diff "+a\n-b" 1000 =
        ⟨statsHeaderSpec (rustLinesL "+a\n-b".data) ++
          (concatLinesNl ((rustLinesL "+a\n-b".data).take k) ++
            (if k < (rustLinesL "+a\n-b".data).length then markerL else []))⟩ ∧
      (∀ i, i < k →
        estL (concatLinesNl ((rustLinesL "+a\n-b".data).take (i + 1))) <
          1000 - estL (statsHeaderSpec (rustLinesL "+a\n-b".data))) ∧
      (k < (rustLinesL "+a\n-b".data).length →
        1000 - estL (statsHeaderSpec (rustLinesL "+a\n-b".data)) ≤
          estL (concatLinesNl ((rustLinesL "+a\n-b".data).take (k + 1)))) :=
  smart_summarize_spec "+a\n-b" 1000 (by decide) (by decide)

end GitDiffAnalyzer
